import Mathlib

/-!
Shallow embedding of the SucklessBot command-dispatch core: the `__init`,
`__onMessage`, `__onDelete` and `__onUpdate` members of the `SucklessBot`
class, together with the `CommandManager` registry it drives.

JavaScript strings are modelled as lists of characters, and the string
operations the source uses (`startsWith`, `replace` with a string pattern,
`trim`, `split(/ +/)`, `toLocaleLowerCase`, `endsWith`) are embedded as
executable functions below.  Handlers attached to a mod are opaque foreign
functions, so a descriptor records only their presence, and each dispatcher
takes an oracle saying which handlers would throw (and with which exception)
on the event being dispatched.
-/

namespace Suckless

/-- JavaScript strings modelled as lists of characters. -/
abbrev Str := List Char

/-- Builds a modelled string from a Lean string literal. -/
def strOf (s : String) : Str := s.data

/-- Embeds `String.prototype.toLocaleLowerCase`; ASCII case folding, which
covers every keyword appearing in this repository. -/
def lowerStr (s : Str) : Str := s.map Char.toLower

/-- Drops leading whitespace characters (space, tab, CR, LF). -/
def wsDropLeft : Str → Str
  | [] => []
  | c :: rest => if c.isWhitespace then wsDropLeft rest else c :: rest

/-- Embeds `String.prototype.trim`: whitespace removed from both ends. -/
def wsTrim (s : Str) : Str := (wsDropLeft (wsDropLeft s).reverse).reverse

/-- Embeds `content.replace(pat, "")` with a string pattern: the first
occurrence of `pat`, if any, is removed; no other occurrence is touched. -/
def replaceFirst : Str → Str → Str
  | [], _ => []
  | c :: rest, pat =>
    if pat.isPrefixOf (c :: rest) then (c :: rest).drop pat.length
    else c :: replaceFirst rest pat

/-- Collapses each run of consecutive spaces to a single space. -/
def collapseSpaces : Str → Str
  | [] => []
  | [c] => [c]
  | c :: c2 :: rest =>
    if c = ' ' ∧ c2 = ' ' then collapseSpaces (c2 :: rest)
    else c :: collapseSpaces (c2 :: rest)

/-- Splits at every occurrence of `sep`, keeping empty pieces, as JavaScript
`split` does with a single-character separator. -/
def splitOnChar (sep : Char) : Str → List Str
  | [] => [[]]
  | c :: rest =>
    if c = sep then [] :: splitOnChar sep rest
    else
      match splitOnChar sep rest with
      | [] => [[c]]
      | t :: ts => (c :: t) :: ts

/-- Embeds `String.prototype.split(/ +/)`: maximal runs of spaces (U+0020
only) separate the pieces; a leading or trailing run produces an empty piece,
exactly as in JavaScript. -/
def splitSp (s : Str) : List Str := splitOnChar ' ' (collapseSpaces s)

/-- Follows the words of the spec only ("split on runs of whitespace into tokens"),
for comparison with the space-only source `split(/ +/)`. -/
def splitWsSpec (s : Str) : List Str :=
  splitSp (s.map (fun c => if c.isWhitespace then ' ' else c))

/-- Embeds the `DSMod` descriptor as `SucklessBot` consumes it.  Optional
fields are `Option`s (JavaScript `undefined`); the four handler functions are
opaque, so only their presence is recorded. -/
structure DSMod where
  name : Str
  command : Option Str
  aliases : Option (List Str)
  intents : Option (List Nat)
  disabled : Bool
  hasOnInit : Bool
  hasOnMsgCreate : Bool
  hasOnMsgUpdate : Bool
  hasOnMsgDelete : Bool
deriving DecidableEq, Repr

/-- A JavaScript exception as the dispatcher observes it: its rendered text
and its stack trace (the source logs both). -/
structure Exn where
  message : Str
  stack : Str
deriving DecidableEq, Repr

/-- Observable actions of the dispatch layer: handler invocations, with the
arguments the source passes them, and error-log lines (`logger.error` with
the mod name and the exception).  Purely informational log lines are not
modelled. -/
inductive BotEvent where
  | initCall (m : DSMod)
  | msgCreateCall (m : DSMod) (args : Option (List Str))
  | msgUpdateCall (m : DSMod) (oldC newC : Str)
  | msgDeleteCall (m : DSMod) (args : List Str)
  | logError (nm : Str) (e : Exn)
deriving DecidableEq, Repr

/-- Embeds the `try { handler(...) } catch (e) { this.logger.error(...) }`
pattern used at every handler call site: the invocation happens, and when the
handler throws, the exception is logged with the mod name and swallowed.
`res` is the oracle verdict on this one invocation. -/
def tryCall (ev : BotEvent) (nm : Str) (res : Option Exn) : List BotEvent :=
  match res with
  | none => [ev]
  | some e => [ev, .logError nm e]

/-- Event sequence produced by a `forEach` loop whose body emits `step m` for
each mod in order. -/
def forEachEvents (step : DSMod → List BotEvent) : List DSMod → List BotEvent
  | [] => []
  | m :: rest => step m ++ forEachEvents step rest

/-- Modelled from the spec: the `CommandManager` class
(`src/manager/commandmanager`) is not present under `src/`.  Per the spec it
maps case-folded keywords to owning descriptors; modelled as an association
list in insertion order. -/
abbrev Registry := List (Str × DSMod)

/-- Modelled from the spec: inserting one keyword — "inserts a
keyword→descriptor mapping unless the keyword already exists; first writer
wins silently (no error, no overwrite)", keywords "normalized before storage
and lookup". -/
def regTryInsert (reg : Registry) (k : Str) (m : DSMod) : Registry :=
  if (reg.find? (fun p => decide (p.1 = lowerStr k))).isSome then reg
  else reg ++ [(lowerStr k, m)]

/-- Modelled from the spec: `CommandManager.register(descriptor)` — "for each
alias (in the order given) then the primary command (if present)". -/
def cmRegister (reg : Registry) (m : DSMod) : Registry :=
  let r1 := (m.aliases.getD []).foldl (fun acc a => regTryInsert acc a m) reg
  match m.command with
  | none => r1
  | some c => regTryInsert r1 c m

/-- Modelled from the spec: `CommandManager.getMod(keyword)` — "returns the
owning descriptor or a not-found result; case-insensitive exact match, no
prefix/fuzzy matching". -/
def getMod (reg : Registry) (k : Str) : Option DSMod :=
  (reg.find? (fun p => decide (p.1 = lowerStr k))).map (fun p => p.2)

/-- Embeds `SucklessBot.__onMessage`.  `pfx` is `this.config.prefix`, `reg`
the command registry, `mods` the loaded mod list, `r` the oracle giving each
per-mod `onMsgCreate` behaviour on this event, `content` the message text.  The
two identical early-`return` fan-out blocks are the two identical
`forEachEvents` expressions. -/
def onMessage (pfx : Str) (reg : Registry) (mods : List DSMod)
    (r : DSMod → Option Exn) (content : Str) : List BotEvent :=
  if pfx.isPrefixOf content then
    let msg := wsTrim (replaceFirst content pfx)
    let arg := splitSp msg
    let cmd := lowerStr (arg.headD [])
    match getMod reg cmd with
    | none =>
      forEachEvents (fun m =>
        if m.hasOnMsgCreate then tryCall (.msgCreateCall m none) m.name (r m) else []) mods
    | some m =>
      if m.hasOnMsgCreate then tryCall (.msgCreateCall m (some arg.tail)) m.name (r m)
      else []
  else
    forEachEvents (fun m =>
      if m.hasOnMsgCreate then tryCall (.msgCreateCall m none) m.name (r m) else []) mods

/-- Embeds the deduplication loop at the top of `__onDelete` and `__onUpdate`
(`if (!mods.includes(mod)) mods.push(mod)`). -/
def dedupMods (mods : List DSMod) : List DSMod :=
  mods.foldl (fun acc m => if m ∈ acc then acc else acc ++ [m]) []

/-- Embeds `SucklessBot.__onDelete`: fan-out of the deleted message, tokenized
with `split(/ +/)`, to every mod with an `onMsgDelete` handler, after the
dedup pass. -/
def onDelete (mods : List DSMod) (r : DSMod → Option Exn) (content : Str) :
    List BotEvent :=
  forEachEvents (fun m =>
    if m.hasOnMsgDelete then tryCall (.msgDeleteCall m (splitSp content)) m.name (r m)
    else []) (dedupMods mods)

/-- Embeds `SucklessBot.__onUpdate`: fan-out of the old and new messages to
every mod with an `onMsgUpdate` handler, after the dedup pass; the source
passes no tokenized content here. -/
def onUpdate (mods : List DSMod) (r : DSMod → Option Exn) (oldC newC : Str) :
    List BotEvent :=
  forEachEvents (fun m =>
    if m.hasOnMsgUpdate then tryCall (.msgUpdateCall m oldC newC) m.name (r m)
    else []) (dedupMods mods)

/-- The accumulated loader state in `__init`: the aggregated intent list,
the command registry, the mod list, and the observable events so far. -/
structure InitState where
  intents : List Nat
  registry : Registry
  mods : List DSMod
  events : List BotEvent
deriving DecidableEq, Repr

/-- Embeds one iteration of the `fs.readdirSync(...).forEach` loop of
`SucklessBot.__init`: skip items not ending in `.js`, skip disabled mods,
accumulate the intents of the mod without duplicates (`mod.intents.forEach` throws
a `TypeError` when `intents` is absent — the uncaught `.error` case),
register the mod, append it to the mod list, and run `onInit` under
try/catch. -/
def loadItem (rInit : DSMod → Option Exn) (st : InitState) (item : Str × DSMod) :
    Except Str InitState :=
  if (strOf ".js").isSuffixOf item.1 then
    if item.2.disabled then .ok st
    else
      match item.2.intents with
      | none => .error (strOf "TypeError: mod.intents is undefined")
      | some l =>
        .ok {
          intents := l.foldl (fun acc i => if i ∈ acc then acc else acc ++ [i]) st.intents
          registry := cmRegister st.registry item.2
          mods := st.mods ++ [item.2]
          events := st.events ++
            (if item.2.hasOnInit then tryCall (.initCall item.2) item.2.name (rInit item.2)
             else []) }
  else .ok st

/-- Folds `loadItem` over the directory listing; an uncaught exception in the
`forEach` body (the missing-intents `TypeError`) aborts the whole loop, as in
JavaScript. -/
def loadFrom (rInit : DSMod → Option Exn) : List (Str × DSMod) → InitState →
    Except Str InitState
  | [], st => .ok st
  | it :: rest, st =>
    match loadItem rInit st it with
    | .error e => .error e
    | .ok st2 => loadFrom rInit rest st2

/-- Embeds the whole mod-loading loop of `__init`, from the empty state. -/
def loadAll (rInit : DSMod → Option Exn) (items : List (Str × DSMod)) :
    Except Str InitState :=
  loadFrom rInit items ⟨[], [], [], []⟩

/-- Embeds lines 161–170 of `__init`: if the client options of the host carry a
non-empty intent set it replaces the aggregated one wholesale.  The source
tests `this.__clientOptions.intents.toString() !== ""`, and
`Array.prototype.toString` of a list of intent flags is empty exactly for the
empty list. -/
def finalIntents (st : InitState) (clientIntents : List Nat) : List Nat :=
  if clientIntents = [] then st.intents else clientIntents

/-- The `onMsgCreate` invocations among a list of events, with their
argument. -/
def createCalls (evs : List BotEvent) : List (DSMod × Option (List Str)) :=
  evs.filterMap (fun e =>
    match e with
    | .msgCreateCall m a => some (m, a)
    | _ => none)

/-- The `onMsgDelete` invocations among a list of events. -/
def deleteCalls (evs : List BotEvent) : List (DSMod × List Str) :=
  evs.filterMap (fun e =>
    match e with
    | .msgDeleteCall m a => some (m, a)
    | _ => none)

/-- The `onMsgUpdate` invocations among a list of events. -/
def updateCalls (evs : List BotEvent) : List (DSMod × Str × Str) :=
  evs.filterMap (fun e =>
    match e with
    | .msgUpdateCall m o n => some (m, o, n)
    | _ => none)

/-- Removes the error-log lines, keeping the handler invocations. -/
def eraseLogs (evs : List BotEvent) : List BotEvent :=
  evs.filter (fun e =>
    match e with
    | .logError _ _ => false
    | _ => true)

/-- A loader state with its error-log lines removed, for comparing loader
runs that differ only in which handlers threw. -/
def scrubState (st : InitState) : InitState :=
  { st with events := eraseLogs st.events }


@[simp]
theorem createCalls_nil : createCalls [] = [] := rfl

theorem createCalls_append (a b : List BotEvent) :
    createCalls (a ++ b) = createCalls a ++ createCalls b :=
  List.filterMap_append a b _

theorem createCalls_tryCall_create (m : DSMod) (a : Option (List Str)) (nm : Str)
    (res : Option Exn) :
    createCalls (tryCall (.msgCreateCall m a) nm res) = [(m, a)] := by
  cases res <;> simp [tryCall, createCalls]

theorem createCalls_forEach_create (mods : List DSMod) (r : DSMod → Option Exn) :
    createCalls (forEachEvents (fun m =>
        if m.hasOnMsgCreate then tryCall (.msgCreateCall m none) m.name (r m) else []) mods)
      = (mods.filter (fun m => m.hasOnMsgCreate)).map
          (fun m => (m, (none : Option (List Str)))) := by
  induction mods with
  | nil => simp [forEachEvents]
  | cons m rest ih =>
    rw [forEachEvents, createCalls_append, ih]
    cases hm : m.hasOnMsgCreate
    · simp [hm, List.filter_cons]
    · simp [hm, List.filter_cons, createCalls_tryCall_create]

theorem onMessage_plain (pfx : Str) (reg : Registry) (mods : List DSMod)
    (r : DSMod → Option Exn) (content : Str) (hpre : pfx.isPrefixOf content = false) :
    onMessage pfx reg mods r content
      = forEachEvents (fun m =>
          if m.hasOnMsgCreate then tryCall (.msgCreateCall m none) m.name (r m) else []) mods := by
  simp only [onMessage, hpre, Bool.false_eq_true, if_false]

theorem onMessage_unresolved (pfx : Str) (reg : Registry) (mods : List DSMod)
    (r : DSMod → Option Exn) (content : Str)
    (hpre : pfx.isPrefixOf content = true)
    (hres : getMod reg (lowerStr ((splitSp (wsTrim (replaceFirst content pfx))).headD [])) = none) :
    onMessage pfx reg mods r content
      = forEachEvents (fun m =>
          if m.hasOnMsgCreate then tryCall (.msgCreateCall m none) m.name (r m) else []) mods := by
  simp only [onMessage, hpre, if_true, hres]

theorem onMessage_resolved (pfx : Str) (reg : Registry) (mods : List DSMod)
    (r : DSMod → Option Exn) (content : Str) (M : DSMod)
    (hpre : pfx.isPrefixOf content = true)
    (hres : getMod reg (lowerStr ((splitSp (wsTrim (replaceFirst content pfx))).headD [])) = some M) :
    onMessage pfx reg mods r content
      = if M.hasOnMsgCreate then
          tryCall (.msgCreateCall M (some (splitSp (wsTrim (replaceFirst content pfx))).tail))
            M.name (r M)
        else [] := by
  simp only [onMessage, hpre, if_true, hres]

/-! Concrete sample data used by witnesses and counterexamples. -/

/-- Sample mod with command `mute`, alias `m`, and create/delete handlers. -/
def modM : DSMod :=
  { name := strOf "M", command := some (strOf "mute"), aliases := some [strOf "m"],
    intents := some [1, 2], disabled := false, hasOnInit := true,
    hasOnMsgCreate := true, hasOnMsgUpdate := false, hasOnMsgDelete := true }

/-- Sample mod with command `kick` and create/update handlers. -/
def modN : DSMod :=
  { name := strOf "N", command := some (strOf "kick"), aliases := some [],
    intents := some [2, 3], disabled := false, hasOnInit := false,
    hasOnMsgCreate := true, hasOnMsgUpdate := true, hasOnMsgDelete := false }

/-- Sample mod with command `quiet` but no `onMsgCreate` handler. -/
def modQ : DSMod :=
  { name := strOf "Q", command := some (strOf "quiet"), aliases := none,
    intents := some [4], disabled := false, hasOnInit := false,
    hasOnMsgCreate := false, hasOnMsgUpdate := false, hasOnMsgDelete := true }

/-- Sample registry holding `modM`, `modN` and `modQ`, in that order. -/
def regMNQ : Registry := cmRegister (cmRegister (cmRegister [] modM) modN) modQ

/-- The all-handlers-succeed oracle. -/
def oracle0 : DSMod → Option Exn := fun _ => none

/-- Helper: the fan-out call list is the handler-carrying mods in order,
with `undefined` arguments, and is duplicate-free when the mod list is. -/
theorem fanout_calls_spec (pfx : Str) (reg : Registry) (mods : List DSMod)
    (r : DSMod → Option Exn) (content : Str)
    (heq : onMessage pfx reg mods r content
      = forEachEvents (fun m =>
          if m.hasOnMsgCreate then tryCall (.msgCreateCall m none) m.name (r m) else []) mods) :
    createCalls (onMessage pfx reg mods r content)
      = (mods.filter (fun m => m.hasOnMsgCreate)).map
          (fun m => (m, (none : Option (List Str))))
    ∧ (mods.Nodup → (createCalls (onMessage pfx reg mods r content)).Nodup) := by
  have hmain : createCalls (onMessage pfx reg mods r content)
      = (mods.filter (fun m => m.hasOnMsgCreate)).map
          (fun m => (m, (none : Option (List Str)))) := by
    rw [heq, createCalls_forEach_create]
  refine ⟨hmain, fun hnd => ?_⟩
  rw [hmain]
  have hinj : Function.Injective
      (fun m : DSMod => (m, (none : Option (List Str)))) := by
    intro a b hab
    simpa using congrArg Prod.fst hab
  exact (hnd.filter _).map hinj

/-- Claim C2: a message that does not start with the prefix is fanned out to every
mod that has an `onMsgCreate` handler, exactly once per mod, in load order,
with the argument parameter `undefined` and no argument splitting. -/
theorem c2_plain_message_fanout (pfx : Str) (reg : Registry) (mods : List DSMod)
    (r : DSMod → Option Exn) (content : Str)
    (hpre : pfx.isPrefixOf content = false) :
    createCalls (onMessage pfx reg mods r content)
      = (mods.filter (fun m => m.hasOnMsgCreate)).map
          (fun m => (m, (none : Option (List Str))))
    ∧ (mods.Nodup → (createCalls (onMessage pfx reg mods r content)).Nodup)
    ∧ (∀ m ∈ mods, m.hasOnMsgCreate = true →
        (m, (none : Option (List Str))) ∈ createCalls (onMessage pfx reg mods r content)) := by
  obtain ⟨hmain, hnd⟩ :=
    fanout_calls_spec pfx reg mods r content (onMessage_plain pfx reg mods r content hpre)
  refine ⟨hmain, hnd, fun m hm hc => ?_⟩
  rw [hmain]
  exact List.mem_map_of_mem _ (List.mem_filter.2 ⟨hm, by simp [hc]⟩)

/-- Witness for C2 at a concrete input. -/
theorem c2_plain_message_fanout_witness :
    ((strOf "!").isPrefixOf (strOf "hello all") = false)
    ∧ (createCalls (onMessage (strOf "!") regMNQ [modM, modN, modQ] oracle0 (strOf "hello all"))
        = ([modM, modN, modQ].filter (fun m => m.hasOnMsgCreate)).map
            (fun m => (m, (none : Option (List Str))))
       ∧ ([modM, modN, modQ].Nodup →
          (createCalls (onMessage (strOf "!") regMNQ [modM, modN, modQ] oracle0
              (strOf "hello all"))).Nodup)
       ∧ (∀ m ∈ [modM, modN, modQ], m.hasOnMsgCreate = true →
          (m, (none : Option (List Str))) ∈
            createCalls (onMessage (strOf "!") regMNQ [modM, modN, modQ] oracle0
              (strOf "hello all")))) :=
  ⟨by decide, c2_plain_message_fanout _ _ _ _ _ (by decide)⟩

/-- Claim C3: a prefix-shaped message whose first token (as the source computes it)
does not resolve in the registry is treated exactly like a plain message —
same fan-out with `undefined` arguments, identical event list to any
no-prefix message, and no error; a message that trims to empty yields the
empty keyword. -/
theorem c3_unresolved_command_fallback (pfx : Str) (reg : Registry) (mods : List DSMod)
    (r : DSMod → Option Exn) (content : Str)
    (hpre : pfx.isPrefixOf content = true)
    (hres : getMod reg (lowerStr ((splitSp (wsTrim (replaceFirst content pfx))).headD []))
      = none) :
    (∀ content2, pfx.isPrefixOf content2 = false →
        onMessage pfx reg mods r content = onMessage pfx reg mods r content2)
    ∧ createCalls (onMessage pfx reg mods r content)
        = (mods.filter (fun m => m.hasOnMsgCreate)).map
            (fun m => (m, (none : Option (List Str))))
    ∧ (∀ m ∈ mods, m.hasOnMsgCreate = true →
        (m, (none : Option (List Str))) ∈ createCalls (onMessage pfx reg mods r content))
    ∧ (wsTrim (replaceFirst content pfx) = [] →
        (splitSp (wsTrim (replaceFirst content pfx))).headD [] = []) := by
  have heq := onMessage_unresolved pfx reg mods r content hpre hres
  obtain ⟨hmain, -⟩ := fanout_calls_spec pfx reg mods r content heq
  refine ⟨fun content2 h2 => ?_, hmain, fun m hm hc => ?_, fun htrim => ?_⟩
  · rw [heq, onMessage_plain pfx reg mods r content2 h2]
  · rw [hmain]
    exact List.mem_map_of_mem _ (List.mem_filter.2 ⟨hm, by simp [hc]⟩)
  · rw [htrim]
    rfl

/-- Witness for C3 at concrete input `"!unknown arg"`. -/
theorem c3_unresolved_command_fallback_witness :
    ((strOf "!").isPrefixOf (strOf "!unknown arg") = true)
    ∧ (getMod regMNQ
        (lowerStr ((splitSp (wsTrim (replaceFirst (strOf "!unknown arg") (strOf "!")))).headD []))
        = none)
    ∧ ((∀ content2, (strOf "!").isPrefixOf content2 = false →
          onMessage (strOf "!") regMNQ [modM, modN, modQ] oracle0 (strOf "!unknown arg")
            = onMessage (strOf "!") regMNQ [modM, modN, modQ] oracle0 content2)
       ∧ createCalls (onMessage (strOf "!") regMNQ [modM, modN, modQ] oracle0
            (strOf "!unknown arg"))
          = ([modM, modN, modQ].filter (fun m => m.hasOnMsgCreate)).map
              (fun m => (m, (none : Option (List Str))))
       ∧ (∀ m ∈ [modM, modN, modQ], m.hasOnMsgCreate = true →
          (m, (none : Option (List Str))) ∈
            createCalls (onMessage (strOf "!") regMNQ [modM, modN, modQ] oracle0
              (strOf "!unknown arg")))
       ∧ (wsTrim (replaceFirst (strOf "!unknown arg") (strOf "!")) = [] →
          (splitSp (wsTrim (replaceFirst (strOf "!unknown arg") (strOf "!")))).headD [] = [])) :=
  ⟨by decide, by decide, c3_unresolved_command_fallback _ _ _ _ _ (by decide) (by decide)⟩

/-- Claim C1 counterexample: with prefix `!`, registry `regMNQ` and message
`"!mute\tx"`, the first whitespace-separated token after stripping and
trimming is `mute`, which resolves to `modM`; yet the dispatcher, which
splits on runs of spaces only, fails to resolve `"mute\tx"` and fans the
message out to every mod with `undefined` arguments instead of delivering it
exclusively to `modM` with arguments `["x"]`. -/
theorem c1_counterexample :
    splitWsSpec (wsTrim (replaceFirst (strOf "!mute\tx") (strOf "!")))
      = [strOf "mute", strOf "x"]
    ∧ getMod regMNQ (lowerStr (strOf "mute")) = some modM
    ∧ onMessage (strOf "!") regMNQ [modM, modN] oracle0 (strOf "!mute\tx")
      = [.msgCreateCall modM none, .msgCreateCall modN none] := by
  refine ⟨by decide, by decide, by decide⟩

/-- Claim C1 (amended to the space-only source tokenizer): when the message starts
with the prefix and the first space-separated token resolves, after case
folding, to mod `M`, the event goes exclusively to the `onMsgCreate` handler of `M`
handler with the remaining tokens as arguments, and no handler of another mod is
invoked. -/
theorem c1_resolved_command_exclusive (pfx : Str) (reg : Registry) (mods : List DSMod)
    (r : DSMod → Option Exn) (content : Str) (M : DSMod) (cmd : Str) (rest : List Str)
    (hpre : pfx.isPrefixOf content = true)
    (htok : splitSp (wsTrim (replaceFirst content pfx)) = cmd :: rest)
    (hres : getMod reg (lowerStr cmd) = some M) :
    createCalls (onMessage pfx reg mods r content)
      = (if M.hasOnMsgCreate then [(M, some rest)] else [])
    ∧ onMessage pfx reg mods r content
      = (if M.hasOnMsgCreate then tryCall (.msgCreateCall M (some rest)) M.name (r M)
         else []) := by
  have hres2 : getMod reg (lowerStr ((splitSp (wsTrim (replaceFirst content pfx))).headD []))
      = some M := by
    rw [htok]
    exact hres
  have heq := onMessage_resolved pfx reg mods r content M hpre hres2
  rw [htok] at heq
  constructor
  · rw [heq]
    cases hm : M.hasOnMsgCreate
    · simp
    · simp [createCalls_tryCall_create]
  · simpa using heq

/-- Witness for the amended C1 at concrete input `"!m @user"` (alias `m` of
`modM`). -/
theorem c1_resolved_command_exclusive_witness :
    ((strOf "!").isPrefixOf (strOf "!m @user") = true)
    ∧ (splitSp (wsTrim (replaceFirst (strOf "!m @user") (strOf "!")))
        = strOf "m" :: [strOf "@user"])
    ∧ (getMod regMNQ (lowerStr (strOf "m")) = some modM)
    ∧ (createCalls (onMessage (strOf "!") regMNQ [modM, modN, modQ] oracle0 (strOf "!m @user"))
        = (if modM.hasOnMsgCreate then [(modM, some [strOf "@user"])] else [])
       ∧ onMessage (strOf "!") regMNQ [modM, modN, modQ] oracle0 (strOf "!m @user")
        = (if modM.hasOnMsgCreate then
            tryCall (.msgCreateCall modM (some [strOf "@user"])) modM.name (oracle0 modM)
           else [])) :=
  ⟨by decide, by decide, by decide,
    c1_resolved_command_exclusive (strOf "!") regMNQ [modM, modN, modQ] oracle0
      (strOf "!m @user") modM (strOf "m") [strOf "@user"]
      (by decide) (by decide) (by decide)⟩

/-- Claim C10: when the resolved mod has no `onMsgCreate` handler, the event is
dropped entirely — no handler of any mod is invoked and nothing is logged. -/
theorem c10_resolved_without_handler_drops (pfx : Str) (reg : Registry) (mods : List DSMod)
    (r : DSMod → Option Exn) (content : Str) (M : DSMod)
    (hpre : pfx.isPrefixOf content = true)
    (hres : getMod reg (lowerStr ((splitSp (wsTrim (replaceFirst content pfx))).headD []))
      = some M)
    (hno : M.hasOnMsgCreate = false) :
    onMessage pfx reg mods r content = [] := by
  rw [onMessage_resolved pfx reg mods r content M hpre hres]
  simp [hno]

/-- Witness for C10 at concrete input `"!quiet now"` (command of `modQ`,
which has no `onMsgCreate`). -/
theorem c10_resolved_without_handler_drops_witness :
    ((strOf "!").isPrefixOf (strOf "!quiet now") = true)
    ∧ (getMod regMNQ
        (lowerStr ((splitSp (wsTrim (replaceFirst (strOf "!quiet now") (strOf "!")))).headD []))
        = some modQ)
    ∧ (modQ.hasOnMsgCreate = false)
    ∧ onMessage (strOf "!") regMNQ [modM, modN, modQ] oracle0 (strOf "!quiet now") = [] :=
  ⟨by decide, by decide, by decide,
    c10_resolved_without_handler_drops (strOf "!") regMNQ [modM, modN, modQ] oracle0
      (strOf "!quiet now") modQ (by decide) (by decide) (by decide)⟩


theorem getMod_cons (p : Str × DSMod) (reg : Registry) (k : Str) :
    getMod (p :: reg) k = if p.1 = lowerStr k then some p.2 else getMod reg k := by
  simp only [getMod, List.find?]
  by_cases h : p.1 = lowerStr k <;> simp [h]

theorem getMod_append_of_some (reg1 reg2 : Registry) (k : Str) (m : DSMod)
    (h : getMod reg1 k = some m) : getMod (reg1 ++ reg2) k = some m := by
  induction reg1 with
  | nil => simp [getMod, List.find?] at h
  | cons p rest ih =>
    rw [List.cons_append, getMod_cons]
    rw [getMod_cons] at h
    by_cases hp : p.1 = lowerStr k
    · simpa [hp] using h
    · rw [if_neg hp]
      rw [if_neg hp] at h
      exact ih h

theorem getMod_append_of_none (reg1 reg2 : Registry) (k : Str)
    (h : getMod reg1 k = none) : getMod (reg1 ++ reg2) k = getMod reg2 k := by
  induction reg1 with
  | nil => simp
  | cons p rest ih =>
    rw [List.cons_append, getMod_cons]
    rw [getMod_cons] at h
    by_cases hp : p.1 = lowerStr k
    · simp [hp] at h
    · rw [if_neg hp]
      rw [if_neg hp] at h
      exact ih h

theorem getMod_eq_none_iff_find?_none (reg : Registry) (k : Str) :
    getMod reg k = none ↔ reg.find? (fun p => decide (p.1 = lowerStr k)) = none := by
  unfold getMod
  cases reg.find? (fun p => decide (p.1 = lowerStr k)) <;> simp

theorem getMod_tryInsert_of_some (reg : Registry) (k k2 : Str) (m m2 : DSMod)
    (h : getMod reg k = some m) : getMod (regTryInsert reg k2 m2) k = some m := by
  unfold regTryInsert
  split
  · exact h
  · exact getMod_append_of_some reg _ k m h

theorem getMod_singleton (kk : Str) (m2 : DSMod) (k : Str) :
    getMod [(kk, m2)] k = if kk = lowerStr k then some m2 else none := by
  rw [getMod_cons]
  rfl

theorem getMod_tryInsert_of_ne (reg : Registry) (k k2 : Str) (m2 : DSMod)
    (hne : lowerStr k2 ≠ lowerStr k) :
    getMod (regTryInsert reg k2 m2) k = getMod reg k := by
  unfold regTryInsert
  split
  · rfl
  · cases h : getMod reg k with
    | none =>
      rw [getMod_append_of_none reg _ k h, getMod_singleton, if_neg hne]
    | some m => exact getMod_append_of_some reg _ k m h

theorem getMod_key_congr (reg : Registry) (k k2 : Str) (hk : lowerStr k2 = lowerStr k) :
    getMod reg k2 = getMod reg k := by
  unfold getMod
  rw [hk]

theorem getMod_tryInsert_hit (reg : Registry) (k k2 : Str) (m2 : DSMod)
    (hnone : getMod reg k = none) (hk : lowerStr k2 = lowerStr k) :
    getMod (regTryInsert reg k2 m2) k = some m2 := by
  have h2 : reg.find? (fun p => decide (p.1 = lowerStr k2)) = none :=
    (getMod_eq_none_iff_find?_none reg k2).1
      (by rw [getMod_key_congr reg k k2 hk]; exact hnone)
  unfold regTryInsert
  rw [h2]
  simp only [Option.isSome_none, Bool.false_eq_true, if_false]
  rw [getMod_append_of_none reg _ k hnone, getMod_singleton, if_pos hk]

theorem getMod_aliasFold_of_some (as : List Str) (reg : Registry) (k : Str)
    (A m : DSMod) (h : getMod reg k = some m) :
    getMod (as.foldl (fun acc a => regTryInsert acc a A) reg) k = some m := by
  induction as generalizing reg with
  | nil => exact h
  | cons a rest ih =>
    exact ih (regTryInsert reg a A) (getMod_tryInsert_of_some reg k a m A h)

/-- First registration wins: an existing binding survives any later
`register` call. -/
theorem getMod_register_of_some (reg : Registry) (B : DSMod) (k : Str) (m : DSMod)
    (h : getMod reg k = some m) : getMod (cmRegister reg B) k = some m := by
  unfold cmRegister
  cases B.command with
  | none =>
    exact getMod_aliasFold_of_some _ reg k B m h
  | some c =>
    exact getMod_tryInsert_of_some _ k c m B (getMod_aliasFold_of_some _ reg k B m h)

theorem getMod_aliasFold_hit (as : List Str) (reg : Registry) (k : Str) (A : DSMod)
    (hnone : getMod reg k = none) (hmem : lowerStr k ∈ as.map lowerStr) :
    getMod (as.foldl (fun acc a => regTryInsert acc a A) reg) k = some A := by
  induction as generalizing reg with
  | nil => simp at hmem
  | cons a rest ih =>
    by_cases ha : lowerStr a = lowerStr k
    · exact getMod_aliasFold_of_some rest _ k A A
        (getMod_tryInsert_hit reg k a A hnone ha)
    · have hmem2 : lowerStr k ∈ rest.map lowerStr := by
        rcases List.mem_map.1 hmem with ⟨b, hb, hbk⟩
        cases hb with
        | head => exact absurd hbk ha
        | tail _ hb2 => exact List.mem_map.2 ⟨b, hb2, hbk⟩
      have hnone2 : getMod (regTryInsert reg a A) k = none := by
        rw [getMod_tryInsert_of_ne reg k a A ha]
        exact hnone
      exact ih (regTryInsert reg a A) hnone2 hmem2

/-- Registering `A` binds each of its alias keywords that was previously
unbound to `A` itself. -/
theorem getMod_register_alias_hit (reg : Registry) (A : DSMod) (k : Str)
    (hnone : getMod reg k = none)
    (hmem : lowerStr k ∈ (A.aliases.getD []).map lowerStr) :
    getMod (cmRegister reg A) k = some A := by
  unfold cmRegister
  cases A.command with
  | none => exact getMod_aliasFold_hit _ reg k A hnone hmem
  | some c =>
    exact getMod_tryInsert_of_some _ k c A A (getMod_aliasFold_hit _ reg k A hnone hmem)

/-- Claim C4: if mod `A` is registered first with `k` among its aliases and mod `B`
is registered second (whatever its primary command, `k` included), resolving
`k` yields `A`, never `B`; in general the first registration of a keyword is never
overwritten by a later `register` call. -/
theorem c4_alias_first_registration_wins (reg : Registry) (A B : DSMod) (k : Str)
    (hnone : getMod reg k = none)
    (hmem : lowerStr k ∈ (A.aliases.getD []).map lowerStr) :
    getMod (cmRegister (cmRegister reg A) B) k = some A
    ∧ (∀ reg2 C k2 m, getMod reg2 k2 = some m → getMod (cmRegister reg2 C) k2 = some m) := by
  refine ⟨?_, fun reg2 C k2 m h => getMod_register_of_some reg2 C k2 m h⟩
  exact getMod_register_of_some _ B k A (getMod_register_alias_hit reg A k hnone hmem)

/-- Sample mod whose primary command `m` collides with the alias of `modM`. -/
def modB : DSMod :=
  { name := strOf "B", command := some (strOf "m"), aliases := some [],
    intents := some [], disabled := false, hasOnInit := false,
    hasOnMsgCreate := true, hasOnMsgUpdate := false, hasOnMsgDelete := false }

/-- Witness for C4: alias `m` of `modM`, registered first, beats the later
primary command of `modB`, namely `m`, registered second. -/
theorem c4_alias_first_registration_wins_witness :
    (getMod [] (strOf "m") = none)
    ∧ (lowerStr (strOf "m") ∈ ((modM.aliases).getD []).map lowerStr)
    ∧ (getMod (cmRegister (cmRegister [] modM) modB) (strOf "m") = some modM
       ∧ (∀ reg2 C k2 m, getMod reg2 k2 = some m → getMod (cmRegister reg2 C) k2 = some m)) :=
  ⟨by decide, by decide,
    c4_alias_first_registration_wins [] modM modB (strOf "m") (by decide) (by decide)⟩

theorem dedupMods_go_nodup (mods : List DSMod) (acc : List DSMod) (hacc : acc.Nodup) :
    (mods.foldl (fun acc m => if m ∈ acc then acc else acc ++ [m]) acc).Nodup := by
  induction mods generalizing acc with
  | nil => exact hacc
  | cons m rest ih =>
    by_cases hm : m ∈ acc
    · simpa [hm] using ih acc hacc
    · have : (acc ++ [m]).Nodup := by
        simp [List.nodup_append, hacc, hm]
      simpa [hm] using ih (acc ++ [m]) this

theorem dedupMods_go_mem (mods : List DSMod) (acc : List DSMod) (x : DSMod) :
    x ∈ mods.foldl (fun acc m => if m ∈ acc then acc else acc ++ [m]) acc
      ↔ x ∈ acc ∨ x ∈ mods := by
  induction mods generalizing acc with
  | nil => simp
  | cons m rest ih =>
    by_cases hm : m ∈ acc
    · simp only [List.foldl_cons, if_pos hm, ih acc, List.mem_cons]
      constructor
      · tauto
      · rintro (h | rfl | h)
        · exact Or.inl h
        · exact Or.inl hm
        · exact Or.inr h
    · simp only [List.foldl_cons, if_neg hm, ih (acc ++ [m]), List.mem_append,
        List.mem_singleton, List.mem_cons]
      tauto

/-- The dedup pass at the top of `__onDelete` / `__onUpdate` yields a
duplicate-free list with the same members. -/
theorem dedupMods_nodup (mods : List DSMod) : (dedupMods mods).Nodup :=
  dedupMods_go_nodup mods [] List.nodup_nil

theorem dedupMods_mem (mods : List DSMod) (x : DSMod) :
    x ∈ dedupMods mods ↔ x ∈ mods := by
  unfold dedupMods
  rw [dedupMods_go_mem mods [] x]
  simp

theorem deleteCalls_append (a b : List BotEvent) :
    deleteCalls (a ++ b) = deleteCalls a ++ deleteCalls b :=
  List.filterMap_append a b _

theorem updateCalls_append (a b : List BotEvent) :
    updateCalls (a ++ b) = updateCalls a ++ updateCalls b :=
  List.filterMap_append a b _

theorem deleteCalls_tryCall (m : DSMod) (a : List Str) (nm : Str) (res : Option Exn) :
    deleteCalls (tryCall (.msgDeleteCall m a) nm res) = [(m, a)] := by
  cases res <;> simp [tryCall, deleteCalls]

theorem updateCalls_tryCall (m : DSMod) (o n : Str) (nm : Str) (res : Option Exn) :
    updateCalls (tryCall (.msgUpdateCall m o n) nm res) = [(m, o, n)] := by
  cases res <;> simp [tryCall, updateCalls]

theorem deleteCalls_forEach (ms : List DSMod) (r : DSMod → Option Exn) (args : List Str) :
    deleteCalls (forEachEvents (fun m =>
        if m.hasOnMsgDelete then tryCall (.msgDeleteCall m args) m.name (r m) else []) ms)
      = (ms.filter (fun m => m.hasOnMsgDelete)).map (fun m => (m, args)) := by
  induction ms with
  | nil => simp [forEachEvents, deleteCalls]
  | cons m rest ih =>
    rw [forEachEvents, deleteCalls_append, ih]
    cases hm : m.hasOnMsgDelete
    · simp [hm, List.filter_cons, deleteCalls]
    · simp [hm, List.filter_cons, deleteCalls_tryCall]

theorem updateCalls_forEach (ms : List DSMod) (r : DSMod → Option Exn) (o n : Str) :
    updateCalls (forEachEvents (fun m =>
        if m.hasOnMsgUpdate then tryCall (.msgUpdateCall m o n) m.name (r m) else []) ms)
      = (ms.filter (fun m => m.hasOnMsgUpdate)).map (fun m => (m, o, n)) := by
  induction ms with
  | nil => simp [forEachEvents, updateCalls]
  | cons m rest ih =>
    rw [forEachEvents, updateCalls_append, ih]
    cases hm : m.hasOnMsgUpdate
    · simp [hm, List.filter_cons, updateCalls]
    · simp [hm, List.filter_cons, updateCalls_tryCall]

/-- Claim C8 counterexample: the source tokenizes a deleted message with
`split(/ +/)` — runs of spaces only — not by whitespace: on the message
`"a\tb"` the delete handler receives the single token `"a\tb"`, while the
whitespace tokenization the claim describes would be `["a", "b"]`; and the
update handlers receive the old and new messages with no token list at
all. -/
theorem c8_counterexample :
    onDelete [modM] oracle0 (strOf "a\tb")
      = [.msgDeleteCall modM [strOf "a\tb"]]
    ∧ splitWsSpec (strOf "a\tb") = [strOf "a", strOf "b"]
    ∧ [strOf "a\tb"] ≠ [strOf "a", strOf "b"]
    ∧ onUpdate [modN] oracle0 (strOf "old a") (strOf "new b")
      = [.msgUpdateCall modN (strOf "old a") (strOf "new b")] := by
  refine ⟨by decide, by decide, by decide, by decide⟩

/-- Claim C8 (amended): update/delete dispatch performs no command parsing; after
deduplicating the mod list, every mod with the corresponding handler is
invoked at most once — on delete with the message content tokenized on runs
of spaces (not all whitespace), on update with the old and new messages and
no tokenized content. -/
theorem c8_update_delete_fanout (mods : List DSMod) (r : DSMod → Option Exn)
    (content oldC newC : Str) :
    deleteCalls (onDelete mods r content)
      = ((dedupMods mods).filter (fun m => m.hasOnMsgDelete)).map
          (fun m => (m, splitSp content))
    ∧ updateCalls (onUpdate mods r oldC newC)
      = ((dedupMods mods).filter (fun m => m.hasOnMsgUpdate)).map
          (fun m => (m, oldC, newC))
    ∧ (dedupMods mods).Nodup
    ∧ (∀ m, m ∈ dedupMods mods ↔ m ∈ mods)
    ∧ (deleteCalls (onDelete mods r content)).Nodup
    ∧ (updateCalls (onUpdate mods r oldC newC)).Nodup := by
  have hdel : deleteCalls (onDelete mods r content)
      = ((dedupMods mods).filter (fun m => m.hasOnMsgDelete)).map
          (fun m => (m, splitSp content)) := by
    unfold onDelete
    rw [deleteCalls_forEach]
  have hupd : updateCalls (onUpdate mods r oldC newC)
      = ((dedupMods mods).filter (fun m => m.hasOnMsgUpdate)).map
          (fun m => (m, oldC, newC)) := by
    unfold onUpdate
    rw [updateCalls_forEach]
  refine ⟨hdel, hupd, dedupMods_nodup mods, dedupMods_mem mods, ?_, ?_⟩
  · rw [hdel]
    have hinj : Function.Injective (fun m : DSMod => (m, splitSp content)) := by
      intro a b hab
      simpa using congrArg Prod.fst hab
    exact ((dedupMods_nodup mods).filter _).map hinj
  · rw [hupd]
    have hinj : Function.Injective (fun m : DSMod => (m, oldC, newC)) := by
      intro a b hab
      simpa using congrArg Prod.fst hab
    exact ((dedupMods_nodup mods).filter _).map hinj

theorem eraseLogs_append (a b : List BotEvent) :
    eraseLogs (a ++ b) = eraseLogs a ++ eraseLogs b := by
  simp [eraseLogs]

theorem eraseLogs_tryCall (ev : BotEvent) (nm : Str) (res : Option Exn) :
    eraseLogs (tryCall ev nm res) = eraseLogs [ev] := by
  cases res <;> simp [tryCall, eraseLogs, List.filter_cons]

theorem eraseLogs_forEach_congr (f g : DSMod → List BotEvent) (ms : List DSMod)
    (h : ∀ m, eraseLogs (f m) = eraseLogs (g m)) :
    eraseLogs (forEachEvents f ms) = eraseLogs (forEachEvents g ms) := by
  induction ms with
  | nil => rfl
  | cons m rest ih => rw [forEachEvents, forEachEvents, eraseLogs_append,
      eraseLogs_append, h m, ih]

theorem eraseLogs_fanout_create (ms : List DSMod) (r r2 : DSMod → Option Exn) :
    eraseLogs (forEachEvents (fun m =>
        if m.hasOnMsgCreate then tryCall (.msgCreateCall m none) m.name (r m) else []) ms)
      = eraseLogs (forEachEvents (fun m =>
        if m.hasOnMsgCreate then tryCall (.msgCreateCall m none) m.name (r2 m) else []) ms) := by
  apply eraseLogs_forEach_congr
  intro m
  cases hm : m.hasOnMsgCreate
  · simp [hm]
  · rw [if_pos rfl, if_pos rfl, eraseLogs_tryCall, eraseLogs_tryCall]

/-- Removing the error logs, the output of the message dispatcher is independent of
which handlers threw. -/
theorem eraseLogs_onMessage_oracle (pfx : Str) (reg : Registry) (mods : List DSMod)
    (r r2 : DSMod → Option Exn) (content : Str) :
    eraseLogs (onMessage pfx reg mods r content)
      = eraseLogs (onMessage pfx reg mods r2 content) := by
  by_cases hp : pfx.isPrefixOf content = true
  · cases hres : getMod reg (lowerStr ((splitSp (wsTrim (replaceFirst content pfx))).headD []))
      with
    | none =>
      rw [onMessage_unresolved pfx reg mods r content hp hres,
        onMessage_unresolved pfx reg mods r2 content hp hres]
      exact eraseLogs_fanout_create mods r r2
    | some M =>
      rw [onMessage_resolved pfx reg mods r content M hp hres,
        onMessage_resolved pfx reg mods r2 content M hp hres]
      cases hm : M.hasOnMsgCreate
      · rw [if_neg (by simp), if_neg (by simp)]
      · rw [if_pos rfl, if_pos rfl, eraseLogs_tryCall, eraseLogs_tryCall]
  · have hp2 : pfx.isPrefixOf content = false := by
      rw [← Bool.not_eq_true]
      exact hp
    rw [onMessage_plain pfx reg mods r content hp2,
      onMessage_plain pfx reg mods r2 content hp2]
    exact eraseLogs_fanout_create mods r r2

theorem log_of_call_fanout_create (ms : List DSMod) (r : DSMod → Option Exn)
    (m : DSMod) (e : Exn) (a : Option (List Str)) (hr : r m = some e)
    (hmem : BotEvent.msgCreateCall m a ∈ forEachEvents (fun x =>
      if x.hasOnMsgCreate then tryCall (.msgCreateCall x none) x.name (r x) else []) ms) :
    BotEvent.logError m.name e ∈ forEachEvents (fun x =>
      if x.hasOnMsgCreate then tryCall (.msgCreateCall x none) x.name (r x) else []) ms := by
  induction ms with
  | nil => simp [forEachEvents] at hmem
  | cons m0 rest ih =>
    rw [forEachEvents] at hmem ⊢
    rcases List.mem_append.1 hmem with hin | hin
    · cases hm0 : m0.hasOnMsgCreate with
      | false =>
        rw [if_neg (by simp [hm0])] at hin
        simp at hin
      | true =>
        rw [if_pos hm0] at hin
        have hma : m = m0 ∧ a = none := by
          cases hres : r m0 <;> rw [hres] at hin <;> simpa [tryCall] using hin
        obtain ⟨rfl, rfl⟩ := hma
        refine List.mem_append.2 (Or.inl ?_)
        rw [if_pos rfl, hr]
        simp [tryCall]
    · exact List.mem_append.2 (Or.inr (ih hin))

/-- A thrown `onMsgCreate` handler that was invoked by the message dispatcher
gets an error-log line with its mod name and the exception. -/
theorem log_of_call_onMessage (pfx : Str) (reg : Registry) (mods : List DSMod)
    (r : DSMod → Option Exn) (content : Str) (m : DSMod) (e : Exn)
    (a : Option (List Str)) (hr : r m = some e)
    (hmem : BotEvent.msgCreateCall m a ∈ onMessage pfx reg mods r content) :
    BotEvent.logError m.name e ∈ onMessage pfx reg mods r content := by
  by_cases hp : pfx.isPrefixOf content = true
  · cases hres : getMod reg (lowerStr ((splitSp (wsTrim (replaceFirst content pfx))).headD []))
      with
    | none =>
      rw [onMessage_unresolved pfx reg mods r content hp hres] at hmem ⊢
      exact log_of_call_fanout_create mods r m e a hr hmem
    | some M =>
      rw [onMessage_resolved pfx reg mods r content M hp hres] at hmem ⊢
      by_cases hM : M.hasOnMsgCreate = true
      · rw [if_pos hM] at hmem ⊢
        have hma : m = M := by
          cases hres2 : r M <;> rw [hres2] at hmem <;> simp [tryCall] at hmem <;>
            exact hmem.1
        subst hma
        rw [hr]
        simp [tryCall]
      · rw [if_neg hM] at hmem
        simp at hmem
  · have hp2 : pfx.isPrefixOf content = false := by
      rw [← Bool.not_eq_true]
      exact hp
    rw [onMessage_plain pfx reg mods r content hp2] at hmem ⊢
    exact log_of_call_fanout_create mods r m e a hr hmem

/-- Removing the error logs, the output of the delete dispatcher is independent of
which handlers threw. -/
theorem eraseLogs_onDelete_oracle (mods : List DSMod) (r r2 : DSMod → Option Exn)
    (content : Str) :
    eraseLogs (onDelete mods r content) = eraseLogs (onDelete mods r2 content) := by
  unfold onDelete
  apply eraseLogs_forEach_congr
  intro m
  by_cases hm : m.hasOnMsgDelete = true
  · rw [if_pos hm, if_pos hm, eraseLogs_tryCall, eraseLogs_tryCall]
  · rw [if_neg hm, if_neg hm]

/-- Removing the error logs, the output of the update dispatcher is independent of
which handlers threw. -/
theorem eraseLogs_onUpdate_oracle (mods : List DSMod) (r r2 : DSMod → Option Exn)
    (oldC newC : Str) :
    eraseLogs (onUpdate mods r oldC newC) = eraseLogs (onUpdate mods r2 oldC newC) := by
  unfold onUpdate
  apply eraseLogs_forEach_congr
  intro m
  by_cases hm : m.hasOnMsgUpdate = true
  · rw [if_pos hm, if_pos hm, eraseLogs_tryCall, eraseLogs_tryCall]
  · rw [if_neg hm, if_neg hm]

/-- A thrown `onMsgDelete` handler that was invoked gets an error-log line
with its mod name and the exception. -/
theorem log_of_call_onDelete (mods : List DSMod) (r : DSMod → Option Exn)
    (content : Str) (m : DSMod) (e : Exn) (a : List Str) (hr : r m = some e)
    (hmem : BotEvent.msgDeleteCall m a ∈ onDelete mods r content) :
    BotEvent.logError m.name e ∈ onDelete mods r content := by
  unfold onDelete at hmem ⊢
  generalize dedupMods mods = ms at hmem ⊢
  induction ms with
  | nil => simp [forEachEvents] at hmem
  | cons m0 rest ih =>
    rw [forEachEvents] at hmem ⊢
    rcases List.mem_append.1 hmem with hin | hin
    · by_cases hm0 : m0.hasOnMsgDelete = true
      · rw [if_pos hm0] at hin
        have hma : m = m0 := by
          cases hres : r m0 <;> rw [hres] at hin <;> simp [tryCall] at hin <;>
            exact hin.1
        subst hma
        refine List.mem_append.2 (Or.inl ?_)
        rw [if_pos hm0, hr]
        simp [tryCall]
      · rw [if_neg hm0] at hin
        simp at hin
    · exact List.mem_append.2 (Or.inr (ih hin))

/-- A thrown `onMsgUpdate` handler that was invoked gets an error-log line
with its mod name and the exception. -/
theorem log_of_call_onUpdate (mods : List DSMod) (r : DSMod → Option Exn)
    (oldC newC : Str) (m : DSMod) (e : Exn) (o2 n2 : Str) (hr : r m = some e)
    (hmem : BotEvent.msgUpdateCall m o2 n2 ∈ onUpdate mods r oldC newC) :
    BotEvent.logError m.name e ∈ onUpdate mods r oldC newC := by
  unfold onUpdate at hmem ⊢
  generalize dedupMods mods = ms at hmem ⊢
  induction ms with
  | nil => simp [forEachEvents] at hmem
  | cons m0 rest ih =>
    rw [forEachEvents] at hmem ⊢
    rcases List.mem_append.1 hmem with hin | hin
    · by_cases hm0 : m0.hasOnMsgUpdate = true
      · rw [if_pos hm0] at hin
        have hma : m = m0 := by
          cases hres : r m0 <;> rw [hres] at hin <;> simp [tryCall] at hin <;>
            exact hin.1
        subst hma
        refine List.mem_append.2 (Or.inl ?_)
        rw [if_pos hm0, hr]
        simp [tryCall]
      · rw [if_neg hm0] at hin
        simp at hin
    · exact List.mem_append.2 (Or.inr (ih hin))

theorem scrubState_components (st1 st2 : InitState) (h : scrubState st1 = scrubState st2) :
    st1.intents = st2.intents ∧ st1.registry = st2.registry ∧ st1.mods = st2.mods
      ∧ eraseLogs st1.events = eraseLogs st2.events := by
  have h1 := congrArg InitState.intents h
  have h2 := congrArg InitState.registry h
  have h3 := congrArg InitState.mods h
  have h4 := congrArg InitState.events h
  exact ⟨h1, h2, h3, h4⟩

/-- One loader iteration, scrubbed of error logs, does not depend on whether
the `onInit` handler threw. -/
theorem loadItem_scrub_oracle (r r2 : DSMod → Option Exn) (st1 st2 : InitState)
    (h : scrubState st1 = scrubState st2) (it : Str × DSMod) :
    (loadItem r st1 it).map scrubState = (loadItem r2 st2 it).map scrubState := by
  obtain ⟨hi, hreg, hmods, hev⟩ := scrubState_components st1 st2 h
  unfold loadItem
  by_cases hjs : (strOf ".js").isSuffixOf it.1 = true
  · rw [if_pos hjs, if_pos hjs]
    by_cases hdis : it.2.disabled = true
    · rw [if_pos hdis, if_pos hdis]
      show Except.ok (scrubState st1) = Except.ok (scrubState st2)
      exact congrArg Except.ok h
    · rw [if_neg hdis, if_neg hdis]
      cases hint : it.2.intents with
      | none => rfl
      | some l =>
        show Except.ok _ = Except.ok _
        refine congrArg Except.ok ?_
        unfold scrubState
        simp only [InitState.mk.injEq]
        refine ⟨by rw [hi], by rw [hreg], by rw [hmods], ?_⟩
        rw [eraseLogs_append, eraseLogs_append, hev]
        by_cases hoi : it.2.hasOnInit = true
        · rw [if_pos hoi, if_pos hoi, eraseLogs_tryCall, eraseLogs_tryCall]
        · rw [if_neg hoi, if_neg hoi]
  · rw [if_neg hjs, if_neg hjs]
    show Except.ok (scrubState st1) = Except.ok (scrubState st2)
    exact congrArg Except.ok h

/-- The whole loader, scrubbed of error logs, is independent of which `onInit`
handlers threw: same aggregated intents, same registry, same mod list, same
init invocations, and the same missing-intents error if any. -/
theorem loadFrom_scrub_oracle (r r2 : DSMod → Option Exn) (items : List (Str × DSMod)) :
    ∀ st1 st2, scrubState st1 = scrubState st2 →
      (loadFrom r items st1).map scrubState = (loadFrom r2 items st2).map scrubState := by
  induction items with
  | nil =>
    intro st1 st2 h
    show Except.ok (scrubState st1) = Except.ok (scrubState st2)
    exact congrArg Except.ok h
  | cons it rest ih =>
    intro st1 st2 h
    have hitem := loadItem_scrub_oracle r r2 st1 st2 h it
    rw [loadFrom, loadFrom]
    cases h1 : loadItem r st1 it with
    | error e1 =>
      cases h2 : loadItem r2 st2 it with
      | error e2 =>
        rw [h1, h2] at hitem
        simp only [Except.map] at hitem
        cases hitem
        rfl
      | ok s2 =>
        rw [h1, h2] at hitem
        simp [Except.map] at hitem
    | ok s1 =>
      cases h2 : loadItem r2 st2 it with
      | error e2 =>
        rw [h1, h2] at hitem
        simp [Except.map] at hitem
      | ok s2 =>
        rw [h1, h2] at hitem
        simp only [Except.map, Except.ok.injEq] at hitem
        exact ih s1 s2 hitem

/-- The per-state invariant that every thrown `onInit` so far has been
logged. -/
def InitLogInv (rInit : DSMod → Option Exn) (st : InitState) : Prop :=
  ∀ m e, BotEvent.initCall m ∈ st.events → rInit m = some e →
    BotEvent.logError m.name e ∈ st.events

theorem loadItem_log_inv (rInit : DSMod → Option Exn) (st : InitState)
    (it : Str × DSMod) (st2 : InitState) (hinv : InitLogInv rInit st)
    (h : loadItem rInit st it = .ok st2) : InitLogInv rInit st2 := by
  unfold loadItem at h
  by_cases hjs : (strOf ".js").isSuffixOf it.1 = true
  · rw [if_pos hjs] at h
    by_cases hdis : it.2.disabled = true
    · rw [if_pos hdis] at h
      cases h
      exact hinv
    · rw [if_neg hdis] at h
      cases hint : it.2.intents with
      | none =>
        rw [hint] at h
        cases h
      | some l =>
        rw [hint] at h
        cases h
        intro m e hmem hr
        rcases List.mem_append.1 hmem with hm | hm
        · exact List.mem_append.2 (Or.inl (hinv m e hm hr))
        · refine List.mem_append.2 (Or.inr ?_)
          by_cases hoi : it.2.hasOnInit = true
          · rw [if_pos hoi] at hm ⊢
            have hmm : m = it.2 := by
              cases hri : rInit it.2 <;> rw [hri] at hm <;> simpa [tryCall] using hm
            subst hmm
            rw [hr]
            simp [tryCall]
          · rw [if_neg hoi] at hm
            simp at hm
  · rw [if_neg hjs] at h
    cases h
    exact hinv

/-- Every `onInit` handler that the loader invoked and that threw is logged
with the mod name and the exception. -/
theorem log_of_init_loadFrom (rInit : DSMod → Option Exn) (items : List (Str × DSMod)) :
    ∀ st stf, InitLogInv rInit st → loadFrom rInit items st = .ok stf →
      InitLogInv rInit stf := by
  induction items with
  | nil =>
    intro st stf hinv h
    rw [loadFrom] at h
    cases h
    exact hinv
  | cons it rest ih =>
    intro st stf hinv h
    rw [loadFrom] at h
    cases h1 : loadItem rInit st it with
    | error e1 =>
      rw [h1] at h
      cases h
    | ok s1 =>
      rw [h1] at h
      exact ih s1 stf (loadItem_log_inv rInit st it s1 hinv h1) h

/-- An exception value used by concrete witnesses. -/
def exnBoom : Exn := { message := strOf "Error: boom", stack := strOf "at onMsgCreate" }

/-- Oracle under which the handlers of `modM` throw `exnBoom` and everything else
succeeds. -/
def oracleM : DSMod → Option Exn := fun m => if m = modM then some exnBoom else none

/-- Claim C6: a handler exception is caught at the call site, logged with the mod
name and the exception, and swallowed.  Formally: stripping error-log lines,
the output of every dispatcher — and the whole resulting loader state — is
independent of which handlers threw, so every other delivery still occurs
unchanged; and for each of the four event kinds, an invoked handler that
threw yields an error-log line carrying the mod name and the exception. -/
theorem c6_handler_exception_isolation :
    (∀ pfx reg mods r r2 content,
      eraseLogs (onMessage pfx reg mods r content)
        = eraseLogs (onMessage pfx reg mods r2 content))
    ∧ (∀ mods r r2 content,
      eraseLogs (onDelete mods r content) = eraseLogs (onDelete mods r2 content))
    ∧ (∀ mods r r2 oldC newC,
      eraseLogs (onUpdate mods r oldC newC) = eraseLogs (onUpdate mods r2 oldC newC))
    ∧ (∀ r r2 items,
      (loadAll r items).map scrubState = (loadAll r2 items).map scrubState)
    ∧ (∀ pfx reg mods r content m e a, r m = some e →
      BotEvent.msgCreateCall m a ∈ onMessage pfx reg mods r content →
      BotEvent.logError m.name e ∈ onMessage pfx reg mods r content)
    ∧ (∀ mods r content m e a, r m = some e →
      BotEvent.msgDeleteCall m a ∈ onDelete mods r content →
      BotEvent.logError m.name e ∈ onDelete mods r content)
    ∧ (∀ mods r oldC newC m e o2 n2, r m = some e →
      BotEvent.msgUpdateCall m o2 n2 ∈ onUpdate mods r oldC newC →
      BotEvent.logError m.name e ∈ onUpdate mods r oldC newC)
    ∧ (∀ rInit items stf m e, loadAll rInit items = .ok stf →
      BotEvent.initCall m ∈ stf.events → rInit m = some e →
      BotEvent.logError m.name e ∈ stf.events) := by
  refine ⟨eraseLogs_onMessage_oracle, eraseLogs_onDelete_oracle, eraseLogs_onUpdate_oracle,
    ?_, ?_, ?_, ?_, ?_⟩
  · intro r r2 items
    exact loadFrom_scrub_oracle r r2 items _ _ rfl
  · intro pfx reg mods r content m e a hr hmem
    exact log_of_call_onMessage pfx reg mods r content m e a hr hmem
  · intro mods r content m e a hr hmem
    exact log_of_call_onDelete mods r content m e a hr hmem
  · intro mods r oldC newC m e o2 n2 hr hmem
    exact log_of_call_onUpdate mods r oldC newC m e o2 n2 hr hmem
  · intro rInit items stf m e hok hmem hr
    refine log_of_init_loadFrom rInit items _ stf ?_ hok m e hmem hr
    intro m2 e2 hmem2 _
    simp at hmem2

/-- Witness for C6: with `modM` throwing, its invocation is logged and `modN`
is still invoked. -/
theorem c6_handler_exception_isolation_witness :
    (oracleM modM = some exnBoom)
    ∧ (BotEvent.msgCreateCall modM none
        ∈ onMessage (strOf "!") regMNQ [modM, modN] oracleM (strOf "hi"))
    ∧ (BotEvent.logError modM.name exnBoom
        ∈ onMessage (strOf "!") regMNQ [modM, modN] oracleM (strOf "hi"))
    ∧ (BotEvent.msgCreateCall modN none
        ∈ onMessage (strOf "!") regMNQ [modM, modN] oracleM (strOf "hi")) :=
  ⟨by decide, by decide,
    c6_handler_exception_isolation.2.2.2.2.1 (strOf "!") regMNQ [modM, modN] oracleM
      (strOf "hi") modM exnBoom none (by decide) (by decide),
    by decide⟩

theorem getMod_tryInsert_cases (reg : Registry) (k k2 : Str) (m m2 : DSMod)
    (h : getMod (regTryInsert reg k2 m2) k = some m) :
    getMod reg k = some m ∨ m = m2 := by
  unfold regTryInsert at h
  split at h
  · exact Or.inl h
  · cases hold : getMod reg k with
    | some m1 =>
      rw [getMod_append_of_some reg _ k m1 hold] at h
      exact Or.inl h
    | none =>
      rw [getMod_append_of_none reg _ k hold, getMod_singleton] at h
      by_cases hk : lowerStr k2 = lowerStr k
      · rw [if_pos hk] at h
        cases h
        exact Or.inr rfl
      · rw [if_neg hk] at h
        cases h

theorem getMod_aliasFold_cases (as : List Str) (reg : Registry) (k : Str) (A m : DSMod)
    (h : getMod (as.foldl (fun acc a => regTryInsert acc a A) reg) k = some m) :
    getMod reg k = some m ∨ m = A := by
  induction as generalizing reg with
  | nil => exact Or.inl h
  | cons a rest ih =>
    rcases ih (regTryInsert reg a A) h with h2 | h2
    · exact getMod_tryInsert_cases reg k a m A h2
    · exact Or.inr h2

/-- Everything `register` adds to the registry maps to the registered mod
itself. -/
theorem getMod_register_cases (reg : Registry) (A : DSMod) (k : Str) (m : DSMod)
    (h : getMod (cmRegister reg A) k = some m) :
    getMod reg k = some m ∨ m = A := by
  unfold cmRegister at h
  cases hc : A.command with
  | none =>
    rw [hc] at h
    exact getMod_aliasFold_cases _ reg k A m h
  | some c =>
    rw [hc] at h
    rcases getMod_tryInsert_cases _ k c m A h with h2 | h2
    · exact getMod_aliasFold_cases _ reg k A m h2
    · exact Or.inr h2

/-- A loader item that is not a `.js` file or whose mod is disabled leaves
the state untouched. -/
theorem loadItem_skip (r : DSMod → Option Exn) (st : InitState) (it : Str × DSMod)
    (hbad : ((strOf ".js").isSuffixOf it.1 && !it.2.disabled) = false) :
    loadItem r st it = .ok st := by
  unfold loadItem
  by_cases hjs : (strOf ".js").isSuffixOf it.1 = true
  · rw [if_pos hjs]
    have hdis : it.2.disabled = true := by
      rw [hjs] at hbad
      simpa using hbad
    rw [if_pos hdis]
  · rw [if_neg hjs]

theorem filter_cons_pos (p : Str × DSMod → Bool) (a : Str × DSMod)
    (l : List (Str × DSMod)) (h : p a = true) :
    (a :: l).filter p = a :: l.filter p := by
  simp [List.filter_cons, h]

theorem filter_cons_neg (p : Str × DSMod → Bool) (a : Str × DSMod)
    (l : List (Str × DSMod)) (h : p a = false) :
    (a :: l).filter p = l.filter p := by
  simp [List.filter_cons, h]

/-- The loader ignores exactly the non-`.js` and disabled items: running it
on the filtered list is the same computation. -/
theorem loadFrom_filter (r : DSMod → Option Exn) (items : List (Str × DSMod)) :
    ∀ st, loadFrom r items st
      = loadFrom r (items.filter (fun it => (strOf ".js").isSuffixOf it.1 && !it.2.disabled)) st := by
  induction items with
  | nil => intro st; rfl
  | cons it rest ih =>
    intro st
    by_cases hgood : ((strOf ".js").isSuffixOf it.1 && !it.2.disabled) = true
    · rw [filter_cons_pos (fun it => (strOf ".js").isSuffixOf it.1 && !it.2.disabled)
        it rest hgood, loadFrom, loadFrom]
      cases h1 : loadItem r st it with
      | error e => rfl
      | ok s1 => exact ih s1
    · have hbad : ((strOf ".js").isSuffixOf it.1 && !it.2.disabled) = false := by
        rw [← Bool.not_eq_true]
        exact hgood
      rw [filter_cons_neg (fun it => (strOf ".js").isSuffixOf it.1 && !it.2.disabled)
        it rest hbad, loadFrom, loadItem_skip r st it hbad]
      exact ih st

/-- Per-state invariant for C5: only enabled mods are visible anywhere. -/
def EnabledOnly (st : InitState) : Prop :=
  (∀ m ∈ st.mods, m.disabled = false)
  ∧ (∀ k m, getMod st.registry k = some m → m.disabled = false)
  ∧ (∀ m, BotEvent.initCall m ∈ st.events → m.disabled = false)

theorem loadItem_enabledOnly (r : DSMod → Option Exn) (st : InitState)
    (it : Str × DSMod) (st2 : InitState) (hinv : EnabledOnly st)
    (h : loadItem r st it = .ok st2) : EnabledOnly st2 := by
  unfold loadItem at h
  by_cases hjs : (strOf ".js").isSuffixOf it.1 = true
  · rw [if_pos hjs] at h
    by_cases hdis : it.2.disabled = true
    · rw [if_pos hdis] at h
      cases h
      exact hinv
    · rw [if_neg hdis] at h
      have hdis2 : it.2.disabled = false := by
        rw [← Bool.not_eq_true]
        exact hdis
      cases hint : it.2.intents with
      | none =>
        rw [hint] at h
        cases h
      | some l =>
        rw [hint] at h
        cases h
        obtain ⟨h1, h2, h3⟩ := hinv
        refine ⟨?_, ?_, ?_⟩
        · intro m hm
          rcases List.mem_append.1 hm with hm | hm
          · exact h1 m hm
          · rw [List.mem_singleton.1 hm]
            exact hdis2
        · intro k m hk
          rcases getMod_register_cases st.registry it.2 k m hk with hk2 | hk2
          · exact h2 k m hk2
          · rw [hk2]
            exact hdis2
        · intro m hm
          rcases List.mem_append.1 hm with hm | hm
          · exact h3 m hm
          · by_cases hoi : it.2.hasOnInit = true
            · rw [if_pos hoi] at hm
              have hmm : m = it.2 := by
                cases hri : r it.2 <;> rw [hri] at hm <;> simpa [tryCall] using hm
              rw [hmm]
              exact hdis2
            · rw [if_neg hoi] at hm
              simp at hm
  · rw [if_neg hjs] at h
    cases h
    exact hinv

theorem loadFrom_enabledOnly (r : DSMod → Option Exn) (items : List (Str × DSMod)) :
    ∀ st stf, EnabledOnly st → loadFrom r items st = .ok stf → EnabledOnly stf := by
  induction items with
  | nil =>
    intro st stf hinv h
    rw [loadFrom] at h
    cases h
    exact hinv
  | cons it rest ih =>
    intro st stf hinv h
    rw [loadFrom] at h
    cases h1 : loadItem r st it with
    | error e =>
      rw [h1] at h
      cases h
    | ok s1 =>
      rw [h1] at h
      exact ih s1 stf (loadItem_enabledOnly r st it s1 hinv h1) h

theorem intentsFold_nodup (l : List Nat) :
    ∀ acc : List Nat, acc.Nodup →
      (l.foldl (fun acc i => if i ∈ acc then acc else acc ++ [i]) acc).Nodup := by
  induction l with
  | nil => exact fun acc h => h
  | cons i rest ih =>
    intro acc hacc
    by_cases hi : i ∈ acc
    · simpa [hi] using ih acc hacc
    · have h2 : (acc ++ [i]).Nodup := by
        simp [List.nodup_append, hacc, hi]
      simpa [hi] using ih (acc ++ [i]) h2

theorem intentsFold_mem (l : List Nat) :
    ∀ (acc : List Nat) (x : Nat),
      x ∈ l.foldl (fun acc i => if i ∈ acc then acc else acc ++ [i]) acc
        ↔ x ∈ acc ∨ x ∈ l := by
  induction l with
  | nil => simp
  | cons i rest ih =>
    intro acc x
    by_cases hi : i ∈ acc
    · simp only [List.foldl_cons, if_pos hi, ih acc, List.mem_cons]
      constructor
      · tauto
      · rintro (h | rfl | h)
        · exact Or.inl h
        · exact Or.inl hi
        · exact Or.inr h
    · simp only [List.foldl_cons, if_neg hi, ih (acc ++ [i]), List.mem_append,
        List.mem_singleton, List.mem_cons]
      tauto

/-- An item the loader actually loads: a `.js` file whose mod is enabled. -/
def GoodItem (it : Str × DSMod) : Prop :=
  (strOf ".js").isSuffixOf it.1 = true ∧ it.2.disabled = false

/-- The aggregated intent list stays duplicate-free and collects exactly the
intents of the loaded mods. -/
theorem loadFrom_intents (r : DSMod → Option Exn) (items : List (Str × DSMod)) :
    ∀ st stf, st.intents.Nodup → loadFrom r items st = .ok stf →
      stf.intents.Nodup
      ∧ (∀ i, i ∈ stf.intents ↔ (i ∈ st.intents
          ∨ ∃ it ∈ items, GoodItem it ∧ ∃ l, it.2.intents = some l ∧ i ∈ l)) := by
  induction items with
  | nil =>
    intro st stf hnd h
    rw [loadFrom] at h
    cases h
    refine ⟨hnd, fun i => ⟨fun h2 => Or.inl h2, ?_⟩⟩
    rintro (h2 | ⟨it2, hit2, h3⟩)
    · exact h2
    · exact absurd hit2 (List.not_mem_nil it2)
  | cons it rest ih =>
    intro st stf hnd h
    rw [loadFrom] at h
    cases h1 : loadItem r st it with
    | error e =>
      rw [h1] at h
      cases h
    | ok s1 =>
      rw [h1] at h
      unfold loadItem at h1
      by_cases hjs : (strOf ".js").isSuffixOf it.1 = true
      · rw [if_pos hjs] at h1
        by_cases hdis : it.2.disabled = true
        · rw [if_pos hdis] at h1
          cases h1
          obtain ⟨hnd2, hmem⟩ := ih st stf hnd h
          refine ⟨hnd2, fun i => ?_⟩
          rw [hmem i]
          constructor
          · rintro (hst | ⟨it2, hit2, hg, hl⟩)
            · exact Or.inl hst
            · exact Or.inr ⟨it2, List.mem_cons_of_mem it hit2, hg, hl⟩
          · rintro (hst | ⟨it2, hit2, hg, hl⟩)
            · exact Or.inl hst
            · rcases List.mem_cons.1 hit2 with rfl | hit3
              · exact absurd hg.2 (by simp [hdis])
              · exact Or.inr ⟨it2, hit3, hg, hl⟩
        · rw [if_neg hdis] at h1
          have hdis2 : it.2.disabled = false := by
            rw [← Bool.not_eq_true]
            exact hdis
          cases hint : it.2.intents with
          | none =>
            rw [hint] at h1
            cases h1
          | some l =>
            rw [hint] at h1
            cases h1
            have hnd1 : (List.foldl (fun acc i => if i ∈ acc then acc else acc ++ [i])
                st.intents l).Nodup := intentsFold_nodup l st.intents hnd
            obtain ⟨hnd2, hmem⟩ := ih _ stf hnd1 h
            refine ⟨hnd2, fun i => ?_⟩
            rw [hmem i]
            have hs1 : ∀ x, x ∈ List.foldl (fun acc i => if i ∈ acc then acc else acc ++ [i])
                st.intents l ↔ x ∈ st.intents ∨ x ∈ l := fun x => intentsFold_mem l st.intents x
            rw [hs1 i]
            constructor
            · rintro ((hst | hl2) | ⟨it2, hit2, hg, hl⟩)
              · exact Or.inl hst
              · exact Or.inr ⟨it, List.mem_cons_self it rest, ⟨hjs, hdis2⟩, l, hint, hl2⟩
              · exact Or.inr ⟨it2, List.mem_cons_of_mem it hit2, hg, hl⟩
            · rintro (hst | ⟨it2, hit2, hg, l2, hl2, hil2⟩)
              · exact Or.inl (Or.inl hst)
              · rcases List.mem_cons.1 hit2 with rfl | hit3
                · rw [hint] at hl2
                  cases hl2
                  exact Or.inl (Or.inr hil2)
                · exact Or.inr ⟨it2, hit3, hg, l2, hl2, hil2⟩
      · rw [if_neg hjs] at h1
        cases h1
        obtain ⟨hnd2, hmem⟩ := ih st stf hnd h
        refine ⟨hnd2, fun i => ?_⟩
        rw [hmem i]
        constructor
        · rintro (hst | ⟨it2, hit2, hg, hl⟩)
          · exact Or.inl hst
          · exact Or.inr ⟨it2, List.mem_cons_of_mem it hit2, hg, hl⟩
        · rintro (hst | ⟨it2, hit2, hg, hl⟩)
          · exact Or.inl hst
          · rcases List.mem_cons.1 hit2 with rfl | hit3
            · exact absurd hg.1 hjs
            · exact Or.inr ⟨it2, hit3, hg, hl⟩

/-- When every enabled `.js` item supplies its intent list, the loader
succeeds. -/
theorem loadFrom_ok (r : DSMod → Option Exn) (items : List (Str × DSMod)) :
    ∀ st, (∀ it ∈ items, (strOf ".js").isSuffixOf it.1 = true →
        it.2.disabled = false → it.2.intents ≠ none) →
      ∃ stf, loadFrom r items st = .ok stf := by
  induction items with
  | nil => exact fun st _ => ⟨st, rfl⟩
  | cons it rest ih =>
    intro st hgood
    have hrest : ∀ it2 ∈ rest, (strOf ".js").isSuffixOf it2.1 = true →
        it2.2.disabled = false → it2.2.intents ≠ none :=
      fun it2 h2 => hgood it2 (List.mem_cons_of_mem it h2)
    rw [loadFrom]
    by_cases hjs : (strOf ".js").isSuffixOf it.1 = true
    · by_cases hdis : it.2.disabled = true
      · rw [show loadItem r st it = .ok st by
          unfold loadItem
          rw [if_pos hjs, if_pos hdis]]
        exact ih st hrest
      · have hdis2 : it.2.disabled = false := by
          rw [← Bool.not_eq_true]
          exact hdis
        cases hint : it.2.intents with
        | none =>
          exact absurd hint (hgood it (List.mem_cons_self it rest) hjs hdis2)
        | some l =>
          have hstep : loadItem r st it = .ok {
              intents := l.foldl (fun acc i => if i ∈ acc then acc else acc ++ [i]) st.intents
              registry := cmRegister st.registry it.2
              mods := st.mods ++ [it.2]
              events := st.events ++
                (if it.2.hasOnInit then tryCall (.initCall it.2) it.2.name (r it.2)
                 else []) } := by
            unfold loadItem
            rw [if_pos hjs, if_neg hdis, hint]
          rw [hstep]
          exact ih _ hrest
    · rw [show loadItem r st it = .ok st by
        unfold loadItem
        rw [if_neg hjs]]
      exact ih st hrest

/-- Sample disabled mod, with every capability a mod can have. -/
def modD : DSMod :=
  { name := strOf "D", command := some (strOf "dead"), aliases := some [strOf "d"],
    intents := some [9], disabled := true, hasOnInit := true,
    hasOnMsgCreate := true, hasOnMsgUpdate := true, hasOnMsgDelete := true }

/-- Sample directory listing: two loadable mods, one disabled mod, one
non-`.js` file. -/
def itemsSample : List (Str × DSMod) :=
  [(strOf "a.js", modM), (strOf "d.js", modD), (strOf "n.txt", modN), (strOf "b.js", modN)]

/-- The loader state `itemsSample` produces. -/
def stSample : InitState :=
  { intents := [1, 2, 3]
    registry := [(strOf "m", modM), (strOf "mute", modM), (strOf "kick", modN)]
    mods := [modM, modN]
    events := [.initCall modM] }

/-- Claim C5: a disabled descriptor is skipped entirely — it never reaches the mod
list, the registry, or the init events, and running the loader on the
directory listing is the same computation as running it with the non-`.js`
and disabled items removed (so it contributes no intents either). -/
theorem c5_disabled_mods_skipped (rInit : DSMod → Option Exn) (items : List (Str × DSMod))
    (stf : InitState) (hok : loadAll rInit items = .ok stf) :
    (∀ m ∈ stf.mods, m.disabled = false)
    ∧ (∀ k m, getMod stf.registry k = some m → m.disabled = false)
    ∧ (∀ m, BotEvent.initCall m ∈ stf.events → m.disabled = false)
    ∧ loadAll rInit items
        = loadAll rInit (items.filter (fun it =>
            (strOf ".js").isSuffixOf it.1 && !it.2.disabled)) := by
  have hinv0 : EnabledOnly ⟨[], [], [], []⟩ := by
    refine ⟨fun m hm => absurd hm (List.not_mem_nil m), fun k m hk => ?_,
      fun m hm => absurd hm (List.not_mem_nil _)⟩
    simp [getMod, List.find?] at hk
  obtain ⟨h1, h2, h3⟩ := loadFrom_enabledOnly rInit items _ stf hinv0 hok
  exact ⟨h1, h2, h3, loadFrom_filter rInit items _⟩

/-- Witness for C5 on `itemsSample`, whose disabled mod `modD` is skipped. -/
theorem c5_disabled_mods_skipped_witness :
    (loadAll oracle0 itemsSample = .ok stSample)
    ∧ ((∀ m ∈ stSample.mods, m.disabled = false)
       ∧ (∀ k m, getMod stSample.registry k = some m → m.disabled = false)
       ∧ (∀ m, BotEvent.initCall m ∈ stSample.events → m.disabled = false)
       ∧ loadAll oracle0 itemsSample
           = loadAll oracle0 (itemsSample.filter (fun it =>
               (strOf ".js").isSuffixOf it.1 && !it.2.disabled))) :=
  ⟨by rfl, c5_disabled_mods_skipped oracle0 itemsSample stSample (by rfl)⟩

/-- Claim C7: the requested intent set is the duplicate-free union of the loaded
intent lists of the loaded mods, and a non-empty intent set in the client options of the host
replaces it wholesale. -/
theorem c7_intent_aggregation_and_override (rInit : DSMod → Option Exn)
    (items : List (Str × DSMod)) (stf : InitState) (ci : List Nat)
    (hok : loadAll rInit items = .ok stf) :
    (ci ≠ [] → finalIntents stf ci = ci)
    ∧ (ci = [] → finalIntents stf ci = stf.intents)
    ∧ stf.intents.Nodup
    ∧ (∀ i, i ∈ stf.intents ↔ ∃ it ∈ items, GoodItem it
        ∧ ∃ l, it.2.intents = some l ∧ i ∈ l) := by
  obtain ⟨hnd, hmem⟩ := loadFrom_intents rInit items _ stf List.nodup_nil hok
  refine ⟨fun hne => ?_, fun he => ?_, hnd, fun i => ?_⟩
  · unfold finalIntents
    rw [if_neg hne]
  · unfold finalIntents
    rw [if_pos he]
  · rw [hmem i]
    constructor
    · rintro (h0 | h)
      · exact absurd h0 (List.not_mem_nil i)
      · exact h
    · exact fun h => Or.inr h

/-- Witness for C7 on `itemsSample`, both with and without a host override. -/
theorem c7_intent_aggregation_and_override_witness :
    (loadAll oracle0 itemsSample = .ok stSample)
    ∧ (([42] ≠ ([] : List Nat) → finalIntents stSample [42] = [42])
       ∧ (([42] : List Nat) = [] → finalIntents stSample [42] = stSample.intents)
       ∧ stSample.intents.Nodup
       ∧ (∀ i, i ∈ stSample.intents ↔ ∃ it ∈ itemsSample, GoodItem it
           ∧ ∃ l, it.2.intents = some l ∧ i ∈ l)) :=
  ⟨by rfl, c7_intent_aggregation_and_override oracle0 itemsSample stSample [42] (by rfl)⟩

/-- Sample mod that omits every optional field except the intent list. -/
def modBare : DSMod :=
  { name := strOf "Bare", command := none, aliases := none,
    intents := some [], disabled := false, hasOnInit := false,
    hasOnMsgCreate := false, hasOnMsgUpdate := false, hasOnMsgDelete := false }

/-- Sample mod that omits the intent list. -/
def modNoIntents : DSMod :=
  { name := strOf "X", command := some (strOf "x"), aliases := some [strOf "y"],
    intents := none, disabled := false, hasOnInit := true,
    hasOnMsgCreate := true, hasOnMsgUpdate := true, hasOnMsgDelete := true }

/-- Claim C9 counterexample: a descriptor that omits the required-capabilities
field (`intents`) is not loaded successfully — `mod.intents.forEach` throws
an uncaught `TypeError`, aborting the load — contradicting the claim that
the absence of any optional field, including the capability set, never
causes an error. -/
theorem c9_counterexample :
    loadAll oracle0 [(strOf "x.js", modNoIntents)]
      = .error (strOf "TypeError: mod.intents is undefined") := by
  rfl

/-- Claim C9 (amended): a descriptor may omit the primary command, the alias list
and any of the four handlers and still load and register without error; only
the intent list is mandatory — when every enabled `.js` item supplies one,
loading succeeds. -/
theorem c9_optional_fields_load (rInit : DSMod → Option Exn) (items : List (Str × DSMod))
    (hint : ∀ it ∈ items, (strOf ".js").isSuffixOf it.1 = true →
      it.2.disabled = false → it.2.intents ≠ none) :
    ∃ stf, loadAll rInit items = .ok stf :=
  loadFrom_ok rInit items _ hint

/-- Witness for the amended C9: `modBare` omits command, aliases and all four
handlers, yet loads. -/
theorem c9_optional_fields_load_witness :
    (∀ it ∈ [(strOf "bare.js", modBare)], (strOf ".js").isSuffixOf it.1 = true →
      it.2.disabled = false → it.2.intents ≠ none)
    ∧ ∃ stf, loadAll oracle0 [(strOf "bare.js", modBare)] = .ok stf :=
  ⟨by decide, c9_optional_fields_load oracle0 [(strOf "bare.js", modBare)] (by decide)⟩

end Suckless
